import Mathlib

/-!
Shallow embedding of the cagliari-news-backend ingestion pipeline
(`normalizeItem.js`, `saveToDb.js`) and proofs about the frozen claims.

Strings are modelled as `List Char`.  JavaScript values reaching the
normalizer are modelled by the inductive `JVal`; JavaScript truthiness,
optional chaining, the `||` operator and `String(...)` coercion are
embedded explicitly.  Machine-level details (UTF-16 vs. code points) do
not matter to any claim; the embedding counts characters.
-/

set_option maxRecDepth 20000

/-- Convert a Lean string literal to the `List Char` string model. -/
def strL (s : String) : List Char := s.data

/-- Model of a loosely typed JavaScript value as delivered by rss-parser. -/
inductive JVal where
  | jnull
  | jundefined
  | jstr (s : List Char)
  | jnum (n : Int)
  | jbool (b : Bool)
  | jobj (fields : List (String × JVal))

/-- JavaScript truthiness of a value. -/
def truthy : JVal → Bool
  | .jnull => false
  | .jundefined => false
  | .jstr s => !s.isEmpty
  | .jnum n => n != 0
  | .jbool b => b
  | .jobj _ => true

/-- Property access `v?.k` with optional chaining: on objects a key lookup
(absent keys give `undefined`), on every non-object value `undefined`. -/
def getField : JVal → String → JVal
  | .jobj fs, k => ((List.lookup k fs).getD .jundefined)
  | _, _ => .jundefined

/-- The JavaScript `a || b` operator. -/
def jor (a b : JVal) : JVal := if truthy a then a else b

/-- The JavaScript `String(v)` coercion (plain objects stringify to
"[object Object]"; arrays are not produced by the feed parser). -/
def jsToString : JVal → List Char
  | .jstr s => s
  | .jnull => strL "null"
  | .jundefined => strL "undefined"
  | .jnum n => (toString n).data
  | .jbool b => if b then strL "true" else strL "false"
  | .jobj _ => strL "[object Object]"

/-- Whitespace class used by the source's `\s` regex and `trim()`;
restricted to the ASCII whitespace actually occurring in feeds. -/
def isWs (c : Char) : Bool := c.isWhitespace

/-- `replace(/\s+/g, ' ')`: every maximal whitespace run becomes one space. -/
def collapseWsL : List Char → List Char
  | [] => []
  | [c] => [if isWs c then ' ' else c]
  | c :: d :: t =>
    if isWs c && isWs d then collapseWsL (d :: t)
    else (if isWs c then ' ' else c) :: collapseWsL (d :: t)

/-- Remove trailing whitespace. -/
def trimR : List Char → List Char
  | [] => []
  | c :: t =>
    let r := trimR t
    if r.isEmpty && isWs c then [] else c :: r

/-- The JavaScript `String.prototype.trim` (both ends). -/
def trimBoth (l : List Char) : List Char := trimR (l.dropWhile isWs)

/-- `str.trim()` on an arbitrary value: only strings have the method;
on any non-string it throws a TypeError. -/
inductive JsErr where
  | typeError
deriving DecidableEq

/-- Result of calling `.trim()` on a JavaScript value. -/
def jsTrimEx : JVal → Except JsErr (List Char)
  | .jstr s => .ok (trimBoth s)
  | _ => .error .typeError

/-- `s.slice(0, e)` where `e` may be negative (counts from the end). -/
def sliceJs (l : List Char) (e : Int) : List Char :=
  if 0 ≤ e then l.take e.toNat else l.take (l.length - (-e).toNat)

/-- Embedding of `makeExcerpt(str, max)` from normalizeItem.js:
falsy input gives null; otherwise collapse whitespace, trim, and if the
result exceeds `max`, slice to `max - 1`, trim, and append an ellipsis. -/
def makeExcerpt (str : JVal) (max : Nat) : Option (List Char) :=
  if truthy str then
    let s := trimBoth (collapseWsL (jsToString str))
    if s.length ≤ max then some s
    else some (trimBoth (sliceJs s ((max : Int) - 1)) ++ ['…'])
  else none

example : makeExcerpt (.jstr (strL "  hello   world  ")) 220 = some (strL "hello world") := by decide
example : makeExcerpt (.jstr (strL "hello world")) 5 = some (strL "hell…") := by decide
example : makeExcerpt (.jstr (strL " ")) 220 = some [] := by decide
example : makeExcerpt (.jstr []) 220 = none := by decide
example : makeExcerpt .jnull 220 = none := by decide
example : makeExcerpt (.jstr (strL "abcde f")) 6 = some (strL "abcde…") := by decide

/-!  Image extraction: the regex `/<img[^>]+src="([^"]+)"/i` of pickImage. -/

/-- Case-insensitive literal prefix test. -/
def startsWithCI (pat l : List Char) : Bool :=
  (l.take pat.length).map Char.toLower == pat.map Char.toLower

/-- After `src="`, the group `([^"]+)` followed by the closing quote:
a non-empty run of non-quote characters that is actually terminated. -/
def captureAfter (rest : List Char) : Option (List Char) :=
  let cap := rest.takeWhile (fun c => c ≠ '"')
  if cap.isEmpty then none
  else if (rest.drop cap.length).isEmpty then none else some cap

/-- Backtracking over the greedy `[^>]+`: try the split points from the
longest prefix downwards; at each, require the literal `src="` and a
terminated capture.  `after` is the text following `<img`. -/
def findJ (after : List Char) : Nat → Option (List Char)
  | 0 => none
  | j + 1 =>
    if startsWithCI (strL "src=\"") (after.drop (j + 1)) then
      match captureAfter (after.drop (j + 1 + 5)) with
      | some c => some c
      | none => findJ after j
    else findJ after j

/-- Attempt the regex match anchored at the head of `l`. -/
def matchImgHead (l : List Char) : Option (List Char) :=
  if startsWithCI (strL "<img") l then
    let after := l.drop 4
    findJ after ((after.takeWhile (fun c => c ≠ '>')).length)
  else none

/-- Leftmost match of `/<img[^>]+src="([^"]+)"/i` over the text,
returning the captured source URL. -/
def imgScan : List Char → Option (List Char)
  | [] => none
  | c :: t =>
    match matchImgHead (c :: t) with
    | some r => some r
    | none => imgScan t

example : imgScan (strL "<p>x</p><img class=\"a\" src=\"http://u/i.png\"> t") =
    some (strL "http://u/i.png") := by decide
example : imgScan (strL "<IMG SRC=\"u\">") = some (strL "u") := by decide
example : imgScan (strL "<imgsrc=\"u\">") = none := by decide
example : imgScan (strL "no images here") = none := by decide
example : imgScan (strL "<img a src=\"u1\" b src=\"u2\">") = some (strL "u2") := by decide

/-!  Dates: `new Date(value)` from the published_at line. -/

/-- A JavaScript Date value: either a valid epoch-milliseconds instant or
the Invalid Date marker. -/
inductive JSDate where
  | invalid
  | valid (ms : Int)
deriving DecidableEq

/-- Decimal digit value of a character, if it is a digit. -/
def digitVal (c : Char) : Option Nat :=
  if c.isDigit then some (c.toNat - 48) else none

/-- Two-digit decimal number. -/
def twoDigits (a b : Char) : Option Nat := do
  let x ← digitVal a
  let y ← digitVal b
  pure (10 * x + y)

/-- Leap year test (proleptic Gregorian, as ECMAScript uses). -/
def isLeap (y : Nat) : Bool := y % 4 == 0 && (y % 100 != 0 || y % 400 == 0)

/-- Number of days of month `m` of year `y`. -/
def daysInMonth (y m : Nat) : Nat :=
  if m = 2 then (if isLeap y then 29 else 28)
  else if m = 4 || m = 6 || m = 9 || m = 11 then 30
  else 31

/-- Days from 1970-01-01 to year/month/day (proleptic Gregorian). -/
def daysFromCivil (y m d : Int) : Int :=
  let y2 := y - (if m ≤ 2 then 1 else 0)
  let era := Int.ediv y2 400
  let yoe := y2 - era * 400
  let mp := Int.emod (m + 9) 12
  let doy := Int.ediv (153 * mp + 2) 5 + d - 1
  let doe := yoe * 365 + Int.ediv yoe 4 - Int.ediv yoe 100 + doy
  era * 146097 + doe - 719468

/-- Epoch milliseconds of a UTC civil date-time. -/
def epochMs (y mo dd hh mi ss ms : Nat) : Int :=
  daysFromCivil y mo dd * 86400000 + hh * 3600000 + mi * 60000 + ss * 1000 + ms

/-- Optional ISO time-of-day suffix: empty, or `Thh:mm`, `Thh:mm:ss`,
`Thh:mm:ss.sss`, each optionally ending in `Z`. -/
def parseTimePart : List Char → Option (Nat × Nat × Nat × Nat)
  | [] => some (0, 0, 0, 0)
  | 'T' :: h1 :: h2 :: ':' :: m1 :: m2 :: rest => do
    let hh ← twoDigits h1 h2
    let mi ← twoDigits m1 m2
    if hh ≤ 23 && mi ≤ 59 then
      match rest with
      | [] => some (hh, mi, 0, 0)
      | ['Z'] => some (hh, mi, 0, 0)
      | ':' :: s1 :: s2 :: rest2 => do
        let ss ← twoDigits s1 s2
        if ss ≤ 59 then
          match rest2 with
          | [] => some (hh, mi, ss, 0)
          | ['Z'] => some (hh, mi, ss, 0)
          | '.' :: a :: b :: c :: rest3 => do
            let x ← digitVal a
            let y ← digitVal b
            let z ← digitVal c
            match rest3 with
            | [] => some (hh, mi, ss, 100 * x + 10 * y + z)
            | ['Z'] => some (hh, mi, ss, 100 * x + 10 * y + z)
            | _ => none
          | _ => none
        else none
      | _ => none
    else none
  | _ => none

/-- Modelled from the ECMAScript `Date` parse algorithm for its mandated
ISO 8601 subset (date, optional time, optional `Z`).  Implementation
defined fallback formats are modelled as unparsable; no claim in scope
depends on a string in those formats parsing, only on clearly invalid
strings failing, which they do in every engine. -/
def jsDateParse (s : List Char) : Option Int :=
  match s with
  | y1 :: y2 :: y3 :: y4 :: '-' :: mo1 :: mo2 :: '-' :: dd1 :: dd2 :: rest => do
    let a ← digitVal y1
    let b ← digitVal y2
    let c ← digitVal y3
    let d ← digitVal y4
    let y := 1000 * a + 100 * b + 10 * c + d
    let mo ← twoDigits mo1 mo2
    let dd ← twoDigits dd1 dd2
    if 1 ≤ mo && mo ≤ 12 && 1 ≤ dd && dd ≤ daysInMonth y mo then
      let (hh, mi, ss, ms) ← parseTimePart rest
      pure (epochMs y mo dd hh mi ss ms)
    else none
  | _ => none

/-- The JavaScript `new Date(value)` constructor on the value kinds a feed
item can hold (always reached with a truthy value in the source). -/
def jsNewDate : JVal → JSDate
  | .jstr s =>
    match jsDateParse s with
    | some ms => .valid ms
    | none => .invalid
  | .jnum n => .valid n
  | .jbool b => .valid (if b then 1 else 0)
  | .jnull => .valid 0
  | .jundefined => .invalid
  | .jobj _ => .invalid

example : jsDateParse (strL "2024-01-02") = some 1704153600000 := by decide
example : jsDateParse (strL "2024-01-02T03:04:05Z") = some 1704164645000 := by decide
example : jsDateParse (strL "not-a-date") = none := by decide
example : jsDateParse (strL "2024-02-30") = none := by decide

/-!  The Fingerprinter: `crypto.createHash('sha1')...digest('hex')`,
embedded as the full SHA-1 algorithm over the UTF-8 bytes of the input
(the Node default encoding for string updates). -/

/-- Reduce to a 32-bit word. -/
def mod32 (n : Nat) : Nat := n % 4294967296

/-- Left rotation of a 32-bit word by `k`. -/
def rotl (k n : Nat) : Nat := mod32 ((n <<< k) + (n >>> (32 - k)))

/-- UTF-8 encoding of one character. -/
def utf8Bytes (c : Char) : List Nat :=
  let n := c.toNat
  if n < 128 then [n]
  else if n < 2048 then [192 + n / 64, 128 + n % 64]
  else if n < 65536 then [224 + n / 4096, 128 + (n / 64) % 64, 128 + n % 64]
  else [240 + n / 262144, 128 + (n / 4096) % 64, 128 + (n / 64) % 64, 128 + n % 64]

/-- Big-endian 8-byte rendering of the message bit length. -/
def lenBytes (n : Nat) : List Nat :=
  (List.range 8).map (fun i => (n >>> (8 * (7 - i))) % 256)

/-- SHA-1 padding: `0x80`, zeros to 56 mod 64, then the 64-bit bit length. -/
def sha1Pad (msg : List Nat) : List Nat :=
  let len := msg.length
  let zeros := (120 - ((len + 1) % 64)) % 64
  msg ++ [128] ++ List.replicate zeros 0 ++ lenBytes (len * 8)

/-- Split into 64-byte blocks; the fuel bounds the number of blocks and
is always instantiated with the list length, which suffices because each
step consumes at least one element. -/
def chunks64Go : Nat → List Nat → List (List Nat)
  | 0, _ => []
  | _, [] => []
  | fuel + 1, b :: t => (b :: t).take 64 :: chunks64Go fuel ((b :: t).drop 64)

/-- Split the padded message into 64-byte blocks. -/
def chunks64 (l : List Nat) : List (List Nat) := chunks64Go l.length l

/-- The 16 initial 32-bit schedule words of a block. -/
def words16 (block : List Nat) : List Nat :=
  (List.range 16).map (fun i =>
    block.getD (4 * i) 0 * 16777216 + block.getD (4 * i + 1) 0 * 65536 +
      block.getD (4 * i + 2) 0 * 256 + block.getD (4 * i + 3) 0)

/-- Extend the schedule by `k` further words. -/
def extendW (ws : List Nat) : Nat → List Nat
  | 0 => ws
  | k + 1 =>
    let n := ws.length
    extendW (ws ++ [rotl 1 (ws.getD (n - 3) 0 ^^^ ws.getD (n - 8) 0 ^^^
      ws.getD (n - 14) 0 ^^^ ws.getD (n - 16) 0)]) k

/-- SHA-1 working state. -/
structure Sha1St where
  a : Nat
  b : Nat
  c : Nat
  d : Nat
  e : Nat

/-- One of the 80 compression rounds. -/
def sha1Round (st : Sha1St) (iw : Nat × Nat) : Sha1St :=
  let i := iw.1
  let w := iw.2
  let f :=
    if i < 20 then (st.b &&& st.c) ||| ((st.b ^^^ 4294967295) &&& st.d)
    else if i < 40 then st.b ^^^ st.c ^^^ st.d
    else if i < 60 then (st.b &&& st.c) ||| (st.b &&& st.d) ||| (st.c &&& st.d)
    else st.b ^^^ st.c ^^^ st.d
  let k :=
    if i < 20 then 1518500249
    else if i < 40 then 1859775393
    else if i < 60 then 2400959708
    else 3395469782
  ⟨mod32 (rotl 5 st.a + f + st.e + k + w), st.a, rotl 30 st.b, st.c, st.d⟩

/-- Compress one 64-byte block into the running digest state. -/
def sha1Block (h : Sha1St) (block : List Nat) : Sha1St :=
  let sched := extendW (words16 block) 64
  let r := sched.enum.foldl sha1Round h
  ⟨mod32 (h.a + r.a), mod32 (h.b + r.b), mod32 (h.c + r.c),
    mod32 (h.d + r.d), mod32 (h.e + r.e)⟩

/-- Digest state of a whole byte message. -/
def sha1Words (msg : List Nat) : Sha1St :=
  (chunks64 (sha1Pad msg)).foldl sha1Block
    ⟨1732584193, 4023233417, 2562383102, 271733878, 3285377520⟩

/-- Lowercase hexadecimal rendering of one 32-bit word, always 8 digits. -/
def wordHex (w : Nat) : List Char :=
  (List.range 8).map (fun i => Nat.digitChar ((w >>> (4 * (7 - i))) % 16))

/-- Embedding of `sha1(str)` from normalizeItem.js: the 40-digit lowercase
hex SHA-1 digest of the UTF-8 bytes of `String(str)`. -/
def sha1Hex (s : List Char) : List Char :=
  let st := sha1Words (s.map utf8Bytes).flatten
  wordHex st.a ++ wordHex st.b ++ wordHex st.c ++ wordHex st.d ++ wordHex st.e

example : sha1Hex (strL "abc") = strL "a9993e364706816aba3e25717850c26c9cd0d89d" := by decide
example : sha1Hex (strL "https://example.com/a") =
    strL "c4ed1c218d14a0f15bba7044693ec4b0d68e0a63" := by decide

/-!  The Normalizer (`normalizeItem`) and its helpers `pickImage` and
`sanitizeContent`. -/

/-- Modelled from the spec: the external `sanitize-html` library is the
Content Sanitizer collaborator; none of the frozen claims depends on the
value it produces, only on the presence propagation done by the source
around it, so the filter itself is modelled as an unspecified total pure
function of the input text. -/
def sanitizeHtmlLib (s : List Char) : List Char := s

/-- Embedding of `sanitizeContent(html)`: null for falsy input, else the
library filter applied to `String(html)`. -/
def sanitizeContent (html : JVal) : Option (List Char) :=
  if truthy html then some (sanitizeHtmlLib (jsToString html)) else none

/-- The JavaScript `typeof v === 'string'` test. -/
def isStrB : JVal → Bool
  | .jstr _ => true
  | _ => false

/-- The string payload of a value known to be a string. -/
def strVal : JVal → List Char
  | .jstr s => s
  | _ => []

/-- Embedding of `pickImage(item)`: enclosure, then media:content, then
media:thumbnail (each as a raw string or an object with a truthy `url`),
then the first `<img src="...">` of `content:encoded` or `content`. -/
def pickImage (item : JVal) : Option JVal :=
  let encl := getField item "enclosure"
  if isStrB encl then some (.jstr (strVal encl))
  else if truthy (getField encl "url") then some (getField encl "url")
  else
    let mContent := getField item "mediaContent"
    if isStrB mContent then some (.jstr (strVal mContent))
    else if truthy (getField mContent "url") then some (getField mContent "url")
    else
      let mThumb := getField item "mediaThumbnail"
      if isStrB mThumb then some (.jstr (strVal mThumb))
      else if truthy (getField mThumb "url") then some (getField mThumb "url")
      else
        let html := jor (getField item "content:encoded") (getField item "content")
        if truthy html then
          match imgScan (jsToString html) with
          | some u => if u.isEmpty then none else some (.jstr u)
          | none => none
        else none

/-- The canonical Article record produced by the Normalizer. -/
structure Article where
  title : List Char
  canonical_url : Option (List Char)
  url_hash : Option (List Char)
  published_at : Option JSDate
  image_url : Option JVal
  excerpt : Option (List Char)
  content_html : Option (List Char)

/-- Embedding of `normalizeItem(item)`.  The two `.trim()` calls are the
only operations in the function that can throw (a TypeError, when the
value they run on is truthy but not a string), so the result is an
`Except`; everything else degrades to an absent field. -/
def normalizeItem (item : JVal) : Except JsErr Article :=
  match jsTrimEx (jor (getField item "title") (.jstr [])) with
  | .error e => .error e
  | .ok title =>
    match jsTrimEx (jor (jor (getField item "link") (getField item "guid")) (.jstr [])) with
    | .error e => .error e
    | .ok cu0 =>
      let canonical_url : Option (List Char) := if cu0.isEmpty then none else some cu0
      let publishedRaw := jor (jor (getField item "isoDate") (getField item "pubDate")) .jnull
      let published_at := if truthy publishedRaw then some (jsNewDate publishedRaw) else none
      let excerptSource := jor (jor (jor (jor (getField item "contentSnippet")
        (getField item "summary")) (getField item "description")) (getField item "content")) .jnull
      let excerpt := makeExcerpt excerptSource 220
      let rawHtml := jor (jor (getField item "content:encoded") (getField item "content")) .jnull
      let content_html := sanitizeContent rawHtml
      let image_url := pickImage item
      let url_hash : Option (List Char) :=
        match canonical_url with
        | some u => if u.isEmpty then none else some (sha1Hex u)
        | none => none
      .ok ⟨title, canonical_url, url_hash, published_at, image_url, excerpt, content_html⟩

/-- An item field holding a string or nothing, as rss-parser emits. -/
def optStr : Option (List Char) → JVal
  | some s => .jstr s
  | none => .jundefined

example : normalizeItem (.jobj []) =
    .ok ⟨[], none, none, none, none, none, none⟩ := rfl
example : normalizeItem .jnull =
    .ok ⟨[], none, none, none, none, none, none⟩ := rfl
example : normalizeItem (.jobj [("title", .jnum 42)]) = .error .typeError := rfl
example : normalizeItem (.jobj [("link", .jnum 42)]) = .error .typeError := rfl
example :
    (normalizeItem (.jobj [("guid", .jstr (strL "id-123"))])).map Article.canonical_url =
      .ok (some (strL "id-123")) := rfl
example :
    (normalizeItem (.jobj [("link", .jstr (strL " ")), ("guid", .jstr (strL "id-123"))])).map
      Article.canonical_url = .ok none := rfl
example :
    (normalizeItem (.jobj [("link", .jstr (strL "https://example.com/a"))])).map
      Article.url_hash = .ok (some (strL "c4ed1c218d14a0f15bba7044693ec4b0d68e0a63")) := rfl
example :
    (normalizeItem (.jobj [("pubDate", .jstr (strL "not-a-date"))])).map
      Article.published_at = .ok (some .invalid) := rfl
example :
    (normalizeItem (.jobj [("isoDate", .jstr (strL "2024-01-02"))])).map
      Article.published_at = .ok (some (.valid 1704153600000)) := rfl
example :
    (normalizeItem (.jobj [("enclosure", .jstr (strL "E")),
      ("mediaThumbnail", .jobj [("url", .jstr (strL "T"))])])).map Article.image_url =
      .ok (some (.jstr (strL "E"))) := rfl

/-!  The Feed Fetcher retry loop (`parseWithRetry`) from saveToDb.js.
The network is modelled by an oracle giving each attempt's outcome; the
returned trace records, in order, each delay (in units of one second,
the source's 1000 ms multiplier) and each attempt made. -/

/-- An observable event of the retry loop. -/
inductive Ev where
  | delayEv (units : Nat)
  | attemptEv (i : Nat)
deriving DecidableEq

/-- One iteration of the retry loop: attempt `i`, with `rem` retries
still allowed after it.  A delay of `i` units precedes every attempt
with `i > 1` (the source's `backoff = 1000 * i`). -/
def pwrGo {α : Type} (oracle : Nat → Except (List Char) α) :
    Nat → Nat → Except (List Char) α × List Ev
  | 0, i =>
    let pre : List Ev := if 1 < i then [.delayEv i] else []
    (oracle i, pre ++ [.attemptEv i])
  | r + 1, i =>
    let pre : List Ev := if 1 < i then [.delayEv i] else []
    match oracle i with
    | .ok f => (.ok f, pre ++ [.attemptEv i])
    | .error _ =>
      let next := pwrGo oracle r (i + 1)
      (next.1, pre ++ [.attemptEv i] ++ next.2)

/-- Embedding of `parseWithRetry(url, attempts)`: attempts are numbered
from 1; after the last failure the last error is rethrown. -/
def parseWithRetry {α : Type} (oracle : Nat → Except (List Char) α)
    (attempts : Nat) : Except (List Char) α × List Ev :=
  pwrGo oracle (attempts - 1) 1

example :
    parseWithRetry (fun _ => (.error (strL "boom") : Except (List Char) Nat)) 3 =
      (.error (strL "boom"),
        [.attemptEv 1, .delayEv 2, .attemptEv 2, .delayEv 3, .attemptEv 3]) := rfl
example :
    parseWithRetry (fun i => if i < 3 then (.error (strL "x") : Except (List Char) Nat)
      else .ok 7) 3 =
      (.ok 7, [.attemptEv 1, .delayEv 2, .attemptEv 2, .delayEv 3, .attemptEv 3]) := rfl

/-!  The Article Store interaction (`insertArticle`) and the Ingestion
Runner (`saveFeed`, `main`) from saveToDb.js.  The MySQL pool is
modelled by a pure function from the submitted article to the query
outcome: an error (a thrown exception) or the reported `affectedRows`.
Each embedded function additionally returns the list of articles passed
to `pool.query`, so that "the store is not called" is provable. -/

/-- Result object of `insertArticle`. -/
structure InsertRes where
  inserted : Bool
  duplicated : Bool
  reason : Option (List Char)
deriving DecidableEq

/-- JavaScript falsiness of a string-or-null field. -/
def jsFalsyStr (o : Option (List Char)) : Bool := (o.getD []).isEmpty

/-- Embedding of `insertArticle(pool, a)`: missing key fields short out
before any query; otherwise `affectedRows` 1 means inserted, 2 means
duplicate, anything else is the unexpected shape. -/
def insertArticle (query : Article → Except (List Char) Nat) (a : Article) :
    Except (List Char) InsertRes × List Article :=
  if a.title.isEmpty || jsFalsyStr a.canonical_url || jsFalsyStr a.url_hash then
    (.ok ⟨false, false, some (strL "missing key fields")⟩, [])
  else
    match query a with
    | .error e => (.error e, [a])
    | .ok rows =>
      if rows = 1 then (.ok ⟨true, false, none⟩, [a])
      else if rows = 2 then (.ok ⟨false, true, none⟩, [a])
      else (.ok ⟨false, false, some (strL "unexpected affectedRows")⟩, [a])

/-- Per-feed tally, the FetchOutcome of the spec. -/
structure Tally where
  inserted : Nat
  duplicated : Nat
  skipped : Nat
  error : Option (List Char)
deriving DecidableEq

/-- Classification of one submitted item by the loop body of `saveFeed`. -/
inductive ItemRes where
  | insertedR
  | duplicatedR
  | skippedR
deriving DecidableEq

/-- The submit-and-classify step of the `saveFeed` loop for an item that
passed the key check: a thrown insert error is caught and counted as
skipped, otherwise the `insertArticle` result object is inspected. -/
def itemStep (query : Article → Except (List Char) Nat) (n : Article) :
    ItemRes × List Article :=
  match insertArticle query n with
  | (.error _, calls) => (.skippedR, calls)
  | (.ok res, calls) =>
    (if res.inserted then .insertedR else if res.duplicated then .duplicatedR
      else .skippedR, calls)

/-- The item loop of `saveFeed`: items lacking canonical_url, url_hash or
title are skipped without a store call; other items are submitted and
tallied.  A normalization throw escapes the loop to the outer catch,
which reports a zero tally carrying the error. -/
def saveGo (query : Article → Except (List Char) Nat) :
    List JVal → Tally → List Article → Tally × List Article
  | [], t, calls => (t, calls)
  | raw :: rest, t, calls =>
    match normalizeItem raw with
    | .error _ => (⟨0, 0, 0, some (strL "TypeError")⟩, calls)
    | .ok n =>
      if jsFalsyStr n.canonical_url || jsFalsyStr n.url_hash || n.title.isEmpty then
        saveGo query rest ⟨t.inserted, t.duplicated, t.skipped + 1, t.error⟩ calls
      else
        match itemStep query n with
        | (.insertedR, cs) =>
          saveGo query rest ⟨t.inserted + 1, t.duplicated, t.skipped, t.error⟩ (calls ++ cs)
        | (.duplicatedR, cs) =>
          saveGo query rest ⟨t.inserted, t.duplicated + 1, t.skipped, t.error⟩ (calls ++ cs)
        | (.skippedR, cs) =>
          saveGo query rest ⟨t.inserted, t.duplicated, t.skipped + 1, t.error⟩ (calls ++ cs)

/-- Embedding of `saveFeed(pool, url)`: fetch with three attempts; a fetch
failure is caught and reported as a zero tally with the error recorded;
a successful fetch runs the item loop starting from a zero tally. -/
def saveFeed (oracle : Nat → Except (List Char) (List JVal))
    (query : Article → Except (List Char) Nat) : Tally :=
  match (parseWithRetry oracle 3).1 with
  | .error e => ⟨0, 0, 0, some e⟩
  | .ok items => (saveGo query items ⟨0, 0, 0, none⟩ []).1

/-- Embedding of the totals loop of `main`: every configured feed source
is processed in order and the three counters are summed; a per-feed
error is not consulted. -/
def mainTotals (feeds : List (Nat → Except (List Char) (List JVal)))
    (query : Article → Except (List Char) Nat) : Nat × Nat × Nat :=
  feeds.foldl (fun acc o =>
    let t := saveFeed o query
    (acc.1 + t.inserted, acc.2.1 + t.duplicated, acc.2.2 + t.skipped)) (0, 0, 0)

/-!  Well-formedness of excerpt text: no two adjacent whitespace
characters, every whitespace character is a plain space, and no leading
or trailing whitespace.  Output of the collapse-and-trim normalization
satisfies all four, and they make the normalization a fixpoint, which is
what the idempotence argument for the Excerpt Builder rests on. -/

/-- No two adjacent whitespace characters. -/
def noTwoWs : List Char → Bool
  | [] => true
  | [_] => true
  | c :: d :: t => !(isWs c && isWs d) && noTwoWs (d :: t)

/-- Every whitespace character is a plain space. -/
def spacesOnly (l : List Char) : Bool := l.all (fun c => !isWs c || c == ' ')

/-- The first character, if any, is not whitespace. -/
def noLeadWs : List Char → Bool
  | [] => true
  | c :: _ => !isWs c

/-- The last character, if any, is not whitespace. -/
def noTrailWs : List Char → Bool
  | [] => true
  | [c] => !isWs c
  | _ :: d :: t => noTrailWs (d :: t)

theorem noTwoWs_tail {c : Char} {t : List Char} (h : noTwoWs (c :: t) = true) :
    noTwoWs t = true := by
  cases t with
  | nil => rfl
  | cons d t2 => simp [noTwoWs] at h; simp [h.2]

theorem noTwoWs_cons {c : Char} {l : List Char} (h : noTwoWs l = true)
    (h2 : isWs c = false ∨ noLeadWs l = true) : noTwoWs (c :: l) = true := by
  cases l with
  | nil => rfl
  | cons d t =>
    simp only [noTwoWs, Bool.and_eq_true, Bool.not_eq_true']
    refine ⟨?_, h⟩
    rcases h2 with h2 | h2
    · simp [h2]
    · simp only [noLeadWs, Bool.not_eq_true'] at h2
      simp [h2]

theorem collapse_noLead {d : Char} {t : List Char} (hd : isWs d = false) :
    noLeadWs (collapseWsL (d :: t)) = true := by
  cases t with
  | nil => simp [collapseWsL, noLeadWs, hd]
  | cons e t2 => simp [collapseWsL, noLeadWs, hd]

theorem collapse_spacesOnly (l : List Char) : spacesOnly (collapseWsL l) = true := by
  induction l with
  | nil => rfl
  | cons c t ih =>
    cases t with
    | nil =>
      by_cases hc : isWs c = true
      · simp [collapseWsL, spacesOnly, hc]
      · simp only [Bool.not_eq_true] at hc
        simp [collapseWsL, spacesOnly, hc]
    | cons d t2 =>
      simp only [collapseWsL]
      by_cases hcd : (isWs c && isWs d) = true
      · simp [hcd, ih]
      · simp only [hcd, if_false]
        cases hc : isWs c with
        | true => simpa [spacesOnly, List.all_cons, hc] using ih
        | false => simpa [spacesOnly, List.all_cons, hc] using ih

theorem collapse_noTwoWs (l : List Char) : noTwoWs (collapseWsL l) = true := by
  induction l with
  | nil => rfl
  | cons c t ih =>
    cases t with
    | nil => simp [collapseWsL, noTwoWs]
    | cons d t2 =>
      simp only [collapseWsL]
      by_cases hcd : (isWs c && isWs d) = true
      · simp [hcd, ih]
      · simp only [hcd, if_false]
        refine noTwoWs_cons ih ?_
        by_cases hc : isWs c = true
        · simp only [Bool.and_eq_true] at hcd
          have hd : isWs d = false := by
            cases hd2 : isWs d
            · rfl
            · exact ((hcd ⟨hc, hd2⟩).elim : (true : Bool) = false)
          right
          simpa [hc] using collapse_noLead (t := t2) hd
        · left
          simp only [Bool.not_eq_true] at hc
          simp [hc]

theorem collapse_fix {l : List Char} (hs : spacesOnly l = true)
    (h2 : noTwoWs l = true) : collapseWsL l = l := by
  induction l with
  | nil => rfl
  | cons c t ih =>
    cases t with
    | nil =>
      simp only [spacesOnly, List.all_cons, Bool.and_eq_true] at hs
      by_cases hc : isWs c = true
      · have : c = ' ' := by
          rcases hs with ⟨h1, _⟩
          simp [hc] at h1
          exact h1
        simp [collapseWsL, hc, this]
      · simp only [Bool.not_eq_true] at hc
        simp [collapseWsL, hc]
    | cons d t2 =>
      simp only [noTwoWs, Bool.and_eq_true, Bool.not_eq_true'] at h2
      rcases h2 with ⟨hcd, h2⟩
      simp only [spacesOnly, List.all_cons, Bool.and_eq_true] at hs
      rcases hs with ⟨hcsp, hs⟩
      have hrec := ih (by simp [spacesOnly, List.all_cons, hs]) h2
      simp only [collapseWsL, hcd, if_false]
      rw [hrec]
      by_cases hc : isWs c = true
      · have : c = ' ' := by simp [hc] at hcsp; exact hcsp
        simp [hc, this]
      · simp only [Bool.not_eq_true] at hc
        simp [hc]


theorem trimR_cons (c : Char) (t : List Char) :
    trimR (c :: t) = if (trimR t).isEmpty && isWs c then [] else c :: trimR t := rfl

theorem trimR_noTrail (l : List Char) : noTrailWs (trimR l) = true := by
  induction l with
  | nil => rfl
  | cons c t ih =>
    rw [trimR_cons]
    by_cases hb : ((trimR t).isEmpty && isWs c) = true
    · simp [hb, noTrailWs]
    · rw [if_neg hb]
      cases hr : trimR t with
      | nil =>
        have hc : isWs c = false := by
          cases hcc : isWs c
          · rfl
          · exact ((hb (by simp [hr, hcc])).elim : (true : Bool) = false)
        simp [noTrailWs, hc]
      | cons d t2 =>
        rw [hr] at ih
        simpa [noTrailWs] using ih

theorem trimR_fix {l : List Char} (h : noTrailWs l = true) : trimR l = l := by
  induction l with
  | nil => rfl
  | cons c t ih =>
    cases t with
    | nil =>
      simp only [noTrailWs, Bool.not_eq_true'] at h
      rw [trimR_cons]
      simp [trimR, h]
    | cons d t2 =>
      have ht : noTrailWs (d :: t2) = true := by simpa [noTrailWs] using h
      rw [trimR_cons, ih ht]
      simp

theorem trimR_headConst {l : List Char} {c : Char} {r : List Char}
    (h : trimR l = c :: r) : ∃ t2, l = c :: t2 := by
  cases l with
  | nil => simp [trimR] at h
  | cons a t =>
    rw [trimR_cons] at h
    by_cases hb : ((trimR t).isEmpty && isWs a) = true
    · rw [if_pos hb] at h
      exact absurd h (by simp)
    · rw [if_neg hb] at h
      obtain ⟨h1, -⟩ := List.cons.inj h
      exact ⟨t, by rw [h1]⟩

theorem noLead_trimR {l : List Char} (h : noLeadWs l = true) :
    noLeadWs (trimR l) = true := by
  cases hr : trimR l with
  | nil => rfl
  | cons c r =>
    rcases trimR_headConst hr with ⟨t2, rfl⟩
    simpa [noLeadWs] using h

theorem trimR_noTwo {l : List Char} (h : noTwoWs l = true) :
    noTwoWs (trimR l) = true := by
  induction l with
  | nil => rfl
  | cons c t ih =>
    have ht := ih (noTwoWs_tail h)
    rw [trimR_cons]
    by_cases hb : ((trimR t).isEmpty && isWs c) = true
    · simp [hb, noTwoWs]
    · rw [if_neg hb]
      refine noTwoWs_cons ht ?_
      cases hc : isWs c
      · left; rfl
      · right
        cases t with
        | nil => exact rfl
        | cons d t2 =>
          have hd : isWs d = false := by
            simp only [noTwoWs, Bool.and_eq_true, Bool.not_eq_true'] at h
            cases hdd : isWs d
            · rfl
            · rw [hc, hdd] at h
              simp at h
          exact noLead_trimR (by simp [noLeadWs, hd])

theorem trimR_spaces {l : List Char} (h : spacesOnly l = true) :
    spacesOnly (trimR l) = true := by
  induction l with
  | nil => rfl
  | cons c t ih =>
    simp only [spacesOnly, List.all_cons, Bool.and_eq_true] at h
    have ht := ih h.2
    rw [trimR_cons]
    by_cases hb : ((trimR t).isEmpty && isWs c) = true
    · simp [hb, spacesOnly]
    · rw [if_neg hb]
      simp only [spacesOnly, List.all_cons, Bool.and_eq_true]
      exact ⟨h.1, ht⟩

theorem trimR_length_le (l : List Char) : (trimR l).length ≤ l.length := by
  induction l with
  | nil => simp [trimR]
  | cons c t ih =>
    rw [trimR_cons]
    by_cases hb : ((trimR t).isEmpty && isWs c) = true
    · simp [hb]
    · rw [if_neg hb]
      simp only [List.length_cons]
      omega

theorem dropWhile_noLead (l : List Char) : noLeadWs (l.dropWhile isWs) = true := by
  induction l with
  | nil => rfl
  | cons c t ih =>
    cases hc : isWs c
    · simp [List.dropWhile, hc, noLeadWs]
    · simpa [List.dropWhile, hc] using ih

theorem dropWhile_fix {l : List Char} (h : noLeadWs l = true) :
    l.dropWhile isWs = l := by
  cases l with
  | nil => rfl
  | cons c t =>
    simp only [noLeadWs, Bool.not_eq_true'] at h
    simp [List.dropWhile, h]

theorem dropWhile_noTwo {l : List Char} (h : noTwoWs l = true) :
    noTwoWs (l.dropWhile isWs) = true := by
  induction l with
  | nil => rfl
  | cons c t ih =>
    cases hc : isWs c
    · simpa [List.dropWhile, hc] using h
    · simp only [List.dropWhile, hc]
      exact ih (noTwoWs_tail h)

theorem dropWhile_spaces {l : List Char} (h : spacesOnly l = true) :
    spacesOnly (l.dropWhile isWs) = true := by
  induction l with
  | nil => rfl
  | cons c t ih =>
    simp only [spacesOnly, List.all_cons, Bool.and_eq_true] at h
    cases hc : isWs c
    · simp only [List.dropWhile, hc]
      simp only [spacesOnly, List.all_cons, Bool.and_eq_true]
      exact ⟨h.1, h.2⟩
    · simp only [List.dropWhile, hc]
      exact ih h.2

theorem dropWhile_ws_length_le (l : List Char) :
    (l.dropWhile isWs).length ≤ l.length := by
  induction l with
  | nil => simp
  | cons c t ih =>
    cases hc : isWs c
    · simp [List.dropWhile, hc]
    · simp only [List.dropWhile, hc, List.length_cons]
      omega

theorem take_noTwo {l : List Char} (h : noTwoWs l = true) (k : Nat) :
    noTwoWs (l.take k) = true := by
  induction l generalizing k with
  | nil => simp [noTwoWs]
  | cons c t ih =>
    cases k with
    | zero => rfl
    | succ k2 =>
      simp only [List.take_succ_cons]
      refine noTwoWs_cons (ih (noTwoWs_tail h) k2) ?_
      cases hc : isWs c
      · left; rfl
      · right
        cases t with
        | nil => simp [List.take_nil, noLeadWs]
        | cons d t2 =>
          cases k2 with
          | zero => exact rfl
          | succ k3 =>
            have hd : isWs d = false := by
              simp only [noTwoWs, Bool.and_eq_true, Bool.not_eq_true'] at h
              cases hdd : isWs d
              · rfl
              · rw [hc, hdd] at h
                simp at h
            simp [List.take_succ_cons, noLeadWs, hd]

theorem take_spaces {l : List Char} (h : spacesOnly l = true) (k : Nat) :
    spacesOnly (l.take k) = true := by
  induction l generalizing k with
  | nil => simp [spacesOnly]
  | cons c t ih =>
    cases k with
    | zero => rfl
    | succ k2 =>
      simp only [spacesOnly, List.all_cons, Bool.and_eq_true] at h
      simp only [List.take_succ_cons, spacesOnly, List.all_cons, Bool.and_eq_true]
      exact ⟨h.1, ih h.2 k2⟩

theorem append_noTwo {l : List Char} {c : Char} (h : noTwoWs l = true)
    (hc : isWs c = false) : noTwoWs (l ++ [c]) = true := by
  induction l with
  | nil => rfl
  | cons a t ih =>
    have ht := ih (noTwoWs_tail h)
    simp only [List.cons_append]
    refine noTwoWs_cons ht ?_
    cases t with
    | nil => right; simp [noLeadWs, hc]
    | cons d t2 =>
      cases ha : isWs a
      · left; rfl
      · right
        have hd : isWs d = false := by
          simp only [noTwoWs, Bool.and_eq_true, Bool.not_eq_true'] at h
          cases hdd : isWs d
          · rfl
          · rw [ha, hdd] at h
            simp at h
        simp [List.cons_append, noLeadWs, hd]

theorem append_spaces {l : List Char} {c : Char} (h : spacesOnly l = true)
    (hc : isWs c = false) : spacesOnly (l ++ [c]) = true := by
  simp only [spacesOnly, List.all_append, List.all_cons, Bool.and_eq_true] at h ⊢
  exact ⟨h, by simp [hc], rfl⟩

theorem append_noTrail (l : List Char) {c : Char} (hc : isWs c = false) :
    noTrailWs (l ++ [c]) = true := by
  induction l with
  | nil => simp [noTrailWs, hc]
  | cons a t ih =>
    cases t with
    | nil => simpa [noTrailWs] using ih
    | cons d t2 => simpa [noTrailWs] using ih

theorem append_noLead {l : List Char} {c : Char} (h : noLeadWs l = true)
    (hc : isWs c = false) : noLeadWs (l ++ [c]) = true := by
  cases l with
  | nil => simp [noLeadWs, hc]
  | cons a t => simpa [noLeadWs] using h

/-- The four well-formedness properties of excerpt text together. -/
def excerptWF (l : List Char) : Prop :=
  noTwoWs l = true ∧ spacesOnly l = true ∧ noLeadWs l = true ∧ noTrailWs l = true

theorem trimBoth_wf {l : List Char} (h1 : noTwoWs l = true)
    (h2 : spacesOnly l = true) : excerptWF (trimBoth l) := by
  refine ⟨trimR_noTwo (dropWhile_noTwo h1), trimR_spaces (dropWhile_spaces h2),
    noLead_trimR (dropWhile_noLead l), trimR_noTrail _⟩

theorem normalizeWS_wf (s : List Char) : excerptWF (trimBoth (collapseWsL s)) :=
  trimBoth_wf (collapse_noTwoWs s) (collapse_spacesOnly s)

theorem trimBoth_fix {l : List Char} (h : excerptWF l) : trimBoth l = l := by
  unfold trimBoth
  rw [dropWhile_fix h.2.2.1, trimR_fix h.2.2.2]

theorem normalizeWS_fix {l : List Char} (h : excerptWF l) :
    trimBoth (collapseWsL l) = l := by
  rw [collapse_fix h.2.1 h.1, trimBoth_fix h]

theorem trimBoth_length_le (l : List Char) : (trimBoth l).length ≤ l.length :=
  le_trans (trimR_length_le _) (dropWhile_ws_length_le l)

theorem sliceJs_of_pos {l : List Char} {m : Nat} (h : 1 ≤ m) :
    sliceJs l ((m : Int) - 1) = l.take (m - 1) := by
  unfold sliceJs
  rw [if_pos (by omega)]
  congr 1
  omega

theorem sliceJs_neg_one (l : List Char) :
    sliceJs l (((0 : Nat) : Int) - 1) = l.take (l.length - 1) := by
  unfold sliceJs
  rw [if_neg (by omega)]
  rfl

theorem isEmpty_false_of_ne {l : List Char} (h : l ≠ []) : l.isEmpty = false := by
  cases l with
  | nil => exact absurd rfl h
  | cons a t => rfl

theorem jsToString_jstr (s : List Char) : jsToString (.jstr s) = s := rfl

theorem truthy_jstr (s : List Char) : truthy (.jstr s) = !s.isEmpty := rfl

/-- C4 (amended): the Excerpt Builder collapses whitespace runs and trims;
a result within the bound is returned as-is, a longer one is truncated to
max-1 characters, trimmed, and given a single ellipsis; absent or empty
input yields absent output; and re-application with the same max is the
identity on every non-empty output (the whitespace-only corner, whose
output is the present-but-empty string, is the sole exception). -/
theorem c4_excerpt_contract :
    (∀ (v : JVal) (mx : Nat), truthy v = false → makeExcerpt v mx = none) ∧
    (∀ (s : List Char) (mx : Nat), s ≠ [] →
      (trimBoth (collapseWsL s)).length ≤ mx →
      makeExcerpt (.jstr s) mx = some (trimBoth (collapseWsL s))) ∧
    (∀ (s : List Char) (mx : Nat), 1 ≤ mx →
      mx < (trimBoth (collapseWsL s)).length →
      makeExcerpt (.jstr s) mx =
        some (trimBoth ((trimBoth (collapseWsL s)).take (mx - 1)) ++ ['…'])) ∧
    (∀ (v : JVal) (mx : Nat) (o : List Char),
      makeExcerpt v mx = some o → o ≠ [] → makeExcerpt (.jstr o) mx = some o) := by
  have hellip : isWs '…' = false := by decide
  refine ⟨?_, ?_, ?_, ?_⟩
  · intro v mx hv
    simp [makeExcerpt, hv]
  · intro s mx hs hlen
    have he := isEmpty_false_of_ne hs
    simp only [makeExcerpt, truthy_jstr, jsToString_jstr, he, Bool.not_false, if_true]
    rw [if_pos hlen]
  · intro s mx h1 hlen
    have hs : s ≠ [] := by
      intro hnil
      subst hnil
      simp [trimBoth, collapseWsL, trimR] at hlen
    have he := isEmpty_false_of_ne hs
    simp only [makeExcerpt, truthy_jstr, jsToString_jstr, he, Bool.not_false, if_true]
    rw [if_neg (by omega), sliceJs_of_pos h1]
  · intro v mx o h hne
    have heo := isEmpty_false_of_ne hne
    cases hv : truthy v with
    | false => simp [makeExcerpt, hv] at h
    | true =>
      simp only [makeExcerpt, hv, if_true] at h
      have hwf0 := normalizeWS_wf (jsToString v)
      by_cases hlen : (trimBoth (collapseWsL (jsToString v))).length ≤ mx
      · rw [if_pos hlen] at h
        obtain rfl : trimBoth (collapseWsL (jsToString v)) = o := Option.some.inj h
        simp only [makeExcerpt, truthy_jstr, jsToString_jstr, heo, Bool.not_false, if_true]
        rw [normalizeWS_fix hwf0, if_pos hlen]
      · rw [if_neg hlen] at h
        obtain rfl := (Option.some.inj h).symm
        set s0 := trimBoth (collapseWsL (jsToString v)) with hs0
        set u := trimBoth (sliceJs s0 ((mx : Int) - 1)) with hu
        have hutake : ∃ k, u = trimBoth (s0.take k) := by
          by_cases h1 : 1 ≤ mx
          · exact ⟨mx - 1, by rw [hu, sliceJs_of_pos h1]⟩
          · have : mx = 0 := by omega
            subst this
            exact ⟨s0.length - 1, by rw [hu, sliceJs_neg_one]⟩
        have hwfu : excerptWF u := by
          obtain ⟨k, hk⟩ := hutake
          rw [hk]
          exact trimBoth_wf (take_noTwo hwf0.1 k) (take_spaces hwf0.2.1 k)
        have hwfo : excerptWF (u ++ ['…']) :=
          ⟨append_noTwo hwfu.1 hellip, append_spaces hwfu.2.1 hellip,
            append_noLead hwfu.2.2.1 hellip, append_noTrail u hellip⟩
        have hlo : (u ++ ['…']).length = u.length + 1 := by simp
        simp only [makeExcerpt, truthy_jstr, jsToString_jstr, heo, Bool.not_false, if_true]
        rw [normalizeWS_fix hwfo]
        by_cases h2 : (u ++ ['…']).length ≤ mx
        · rw [if_pos h2]
        · rw [if_neg h2]
          have hmx0 : mx = 0 := by
            by_contra hmx
            have h1 : 1 ≤ mx := by omega
            have : u.length ≤ mx - 1 := by
              obtain ⟨k, hk⟩ := hutake
              have h3 : u = trimBoth (s0.take (mx - 1)) := by
                rw [hu, sliceJs_of_pos h1]
              calc u.length ≤ (s0.take (mx - 1)).length := by
                    rw [h3]; exact trimBoth_length_le _
                _ ≤ mx - 1 := by simp [List.length_take]
            omega
          subst hmx0
          rw [sliceJs_neg_one]
          have htake : (u ++ ['…']).take ((u ++ ['…']).length - 1) = u := by
            rw [hlo]
            simp only [Nat.add_sub_cancel]
            exact List.take_left u ['…']
          rw [htake, trimBoth_fix hwfu]

/-- C4 counterexample: a whitespace-only input is truthy and collapses to
the present-but-empty excerpt, but a second application of the builder to
that output returns absent, so the builder as claimed is not idempotent
on its own output. -/
theorem c4_idempotence_cex :
    makeExcerpt (.jstr (strL " ")) 220 = some [] ∧
    makeExcerpt (.jstr []) 220 = none ∧ some ([] : List Char) ≠ none :=
  ⟨rfl, rfl, by decide⟩

/-- C4 witness: each part of the contract discharged at a concrete input. -/
theorem c4_excerpt_contract_witness :
    makeExcerpt .jnull 220 = none ∧
    makeExcerpt (.jstr (strL "a  b")) 3 = some (strL "a b") ∧
    makeExcerpt (.jstr (strL "hello world")) 5 = some (strL "hell…") ∧
    makeExcerpt (.jstr (strL "a b")) 3 = some (strL "a b") :=
  ⟨c4_excerpt_contract.1 .jnull 220 rfl,
    c4_excerpt_contract.2.1 (strL "a  b") 3 (by decide) (by decide),
    c4_excerpt_contract.2.2.1 (strL "hello world") 5 (by decide) (by decide),
    c4_excerpt_contract.2.2.2 (.jstr (strL "a  b")) 3 (strL "a b") (by decide)
      (by decide)⟩

/-!  Inversion of the Normalizer and the claims over Article fields. -/

theorem jsTrimEx_ok {v : JVal} {s : List Char} (h : jsTrimEx v = .ok s) :
    ∃ s0, v = .jstr s0 ∧ s = trimBoth s0 := by
  cases v with
  | jstr s0 =>
    refine ⟨s0, rfl, ?_⟩
    simpa [jsTrimEx] using h.symm
  | jnull => simp [jsTrimEx] at h
  | jundefined => simp [jsTrimEx] at h
  | jnum n => simp [jsTrimEx] at h
  | jbool b => simp [jsTrimEx] at h
  | jobj fs => simp [jsTrimEx] at h

/-- Inversion of a successful normalization: how each claim-relevant field
of the Article is computed from the raw item. -/
theorem normalizeItem_ok_fields {item : JVal} {a : Article}
    (h : normalizeItem item = .ok a) :
    (∃ s, jor (getField item "title") (.jstr []) = .jstr s ∧ a.title = trimBoth s) ∧
    (∃ s, jor (jor (getField item "link") (getField item "guid")) (.jstr []) = .jstr s ∧
      a.canonical_url = (if (trimBoth s).isEmpty then none else some (trimBoth s))) ∧
    a.url_hash = a.canonical_url.map sha1Hex ∧
    a.published_at =
      (if truthy (jor (jor (getField item "isoDate") (getField item "pubDate")) .jnull)
        then some (jsNewDate (jor (jor (getField item "isoDate") (getField item "pubDate")) .jnull))
        else none) := by
  unfold normalizeItem at h
  cases hT : jsTrimEx (jor (getField item "title") (JVal.jstr [])) with
  | error e => rw [hT] at h; simp at h
  | ok title =>
    rw [hT] at h
    cases hL : jsTrimEx (jor (jor (getField item "link") (getField item "guid"))
        (JVal.jstr [])) with
    | error e => rw [hL] at h; simp at h
    | ok cu0 =>
      rw [hL] at h
      simp only [Except.ok.injEq] at h
      subst h
      obtain ⟨sT, hsT, hTeq⟩ := jsTrimEx_ok hT
      obtain ⟨sL, hsL, hLeq⟩ := jsTrimEx_ok hL
      refine ⟨⟨sT, hsT, by simp [hTeq]⟩, ⟨sL, hsL, by simp [hLeq]⟩, ?_, ?_⟩
      · by_cases hcu : cu0.isEmpty = true
        · simp [hcu]
        · simp only [Bool.not_eq_true] at hcu
          simp [hcu]
      · rfl

/-- A hexadecimal digit character as produced by the digest rendering. -/
def isHexChar (c : Char) : Bool :=
  ('0' ≤ c && c ≤ '9') || ('a' ≤ c && c ≤ 'f')

theorem digitChar_mod16_hex (n : Nat) : isHexChar (Nat.digitChar (n % 16)) = true := by
  have h : n % 16 < 16 := Nat.mod_lt _ (by norm_num)
  generalize hk : n % 16 = k at h
  interval_cases k <;> decide

theorem wordHex_length (w : Nat) : (wordHex w).length = 8 := by
  simp [wordHex]

theorem wordHex_all_hex (w : Nat) : (wordHex w).all isHexChar = true := by
  unfold wordHex
  apply List.all_eq_true.2
  intro c hc
  rw [List.mem_map] at hc
  obtain ⟨i, hi, rfl⟩ := hc
  exact digitChar_mod16_hex _

theorem sha1Hex_length (s : List Char) : (sha1Hex s).length = 40 := by
  simp [sha1Hex, List.length_append, wordHex_length]

theorem sha1Hex_all_hex (s : List Char) : (sha1Hex s).all isHexChar = true := by
  simp [sha1Hex, List.all_append, wordHex_all_hex]

/-- C1: url_hash is present exactly when canonical_url is present, it is a
deterministic pure function of canonical_url alone (equal canonical URLs
give equal hashes, across any two normalizations), and every produced
hash is a 40-character lowercase hexadecimal digest. -/
theorem c1_urlhash_dedup_key :
    (∀ (item : JVal) (a : Article), normalizeItem item = .ok a →
      (a.url_hash.isSome = true ↔ a.canonical_url.isSome = true)) ∧
    (∀ (i1 i2 : JVal) (a1 a2 : Article), normalizeItem i1 = .ok a1 →
      normalizeItem i2 = .ok a2 → a1.canonical_url = a2.canonical_url →
      a1.url_hash = a2.url_hash) ∧
    (∀ s : List Char, (sha1Hex s).length = 40 ∧ (sha1Hex s).all isHexChar = true) ∧
    (∀ (item : JVal) (a : Article) (u : List Char), normalizeItem item = .ok a →
      a.canonical_url = some u → a.url_hash = some (sha1Hex u)) := by
  refine ⟨?_, ?_, ?_, ?_⟩
  · intro item a h
    rw [(normalizeItem_ok_fields h).2.2.1]
    cases a.canonical_url <;> simp
  · intro i1 i2 a1 a2 h1 h2 hcu
    rw [(normalizeItem_ok_fields h1).2.2.1, (normalizeItem_ok_fields h2).2.2.1, hcu]
  · intro s
    exact ⟨sha1Hex_length s, sha1Hex_all_hex s⟩
  · intro item a u h hcu
    rw [(normalizeItem_ok_fields h).2.2.1, hcu]
    rfl

/-- Two raw items whose canonical URLs agree after trimming. -/
def c1itemA : JVal :=
  .jobj [("title", .jstr (strL "Breaking News")), ("link", .jstr (strL "https://example.com/a"))]

/-- Same URL with different surrounding whitespace and a different title. -/
def c1itemB : JVal :=
  .jobj [("title", .jstr (strL "Other")), ("link", .jstr (strL "  https://example.com/a  "))]

/-- The Article normalized from `c1itemA`. -/
def c1artA : Article :=
  match normalizeItem c1itemA with
  | .ok a => a
  | .error _ => ⟨[], none, none, none, none, none, none⟩

/-- The Article normalized from `c1itemB`. -/
def c1artB : Article :=
  match normalizeItem c1itemB with
  | .ok a => a
  | .error _ => ⟨[], none, none, none, none, none, none⟩

/-- C1 witness: the two concrete normalizations share the dedup hash, the
hash is present alongside the canonical URL, and it is the 40-digit hex
digest of the trimmed URL. -/
theorem c1_urlhash_dedup_key_witness :
    c1artA.url_hash = c1artB.url_hash ∧
    c1artA.url_hash.isSome = true ∧
    c1artA.url_hash = some (sha1Hex (strL "https://example.com/a")) :=
  ⟨c1_urlhash_dedup_key.2.1 c1itemA c1itemB c1artA c1artB rfl rfl rfl,
    (c1_urlhash_dedup_key.1 c1itemA c1artA rfl).mpr (by decide),
    c1_urlhash_dedup_key.2.2.2 c1itemA c1artA (strL "https://example.com/a") rfl rfl⟩

theorem jorChain (ol og : Option (List Char)) :
    jor (jor (optStr ol) (optStr og)) (.jstr []) =
      .jstr (if !(ol.getD []).isEmpty then ol.getD []
        else if !(og.getD []).isEmpty then og.getD [] else []) := by
  rcases ol with _ | l <;> rcases og with _ | g
  · simp [optStr, jor, truthy]
  · by_cases hg0 : g.isEmpty = true
    · simp [optStr, jor, truthy, hg0]
    · simp [optStr, jor, truthy, hg0]
  · by_cases hl0 : l.isEmpty = true
    · simp [optStr, jor, truthy, hl0]
    · simp [optStr, jor, truthy, hl0]
  · by_cases hl0 : l.isEmpty = true
    · by_cases hg0 : g.isEmpty = true
      · simp [optStr, jor, truthy, hl0, hg0]
      · simp [optStr, jor, truthy, hl0, hg0]
    · simp [optStr, jor, truthy, hl0]

/-- Absent when empty, the spec's "empty string after trim is treated as
absent". -/
def emptyToNone (l : List Char) : Option (List Char) :=
  if l.isEmpty then none else some l

/-- The Field Extractor contract for the canonical URL, written from the
spec: the trimmed `link` when `link` is present and non-empty, else the
trimmed `guid` when present and non-empty, else absent; a value that is
empty after trimming is treated as absent. -/
def canonicalUrlSpec (link guid : Option (List Char)) : Option (List Char) :=
  if !(link.getD []).isEmpty then emptyToNone (trimBoth (link.getD []))
  else if !(guid.getD []).isEmpty then emptyToNone (trimBoth (guid.getD []))
  else none

/-- C8: on every item whose `link` and `guid` fields are strings or
absent, the Normalizer computes exactly the specified canonical URL, and
in particular the guid-only item resolves to its guid. -/
theorem c8_canonical_url :
    (∀ (item : JVal) (a : Article) (ol og : Option (List Char)),
      getField item "link" = optStr ol → getField item "guid" = optStr og →
      normalizeItem item = .ok a → a.canonical_url = canonicalUrlSpec ol og) ∧
    ((normalizeItem (.jobj [("guid", .jstr (strL "id-123"))])).map Article.canonical_url =
      .ok (some (strL "id-123"))) := by
  refine ⟨?_, rfl⟩
  intro item a ol og hl hg h
  obtain ⟨-, ⟨s, hs, hcu⟩, -, -⟩ := normalizeItem_ok_fields h
  rw [hl, hg, jorChain] at hs
  have hseq : (if !(ol.getD []).isEmpty then ol.getD []
      else if !(og.getD []).isEmpty then og.getD [] else []) = s := JVal.jstr.inj hs
  rw [← hseq] at hcu
  rw [hcu]
  rcases ol with _ | l <;> rcases og with _ | g
  · simp [canonicalUrlSpec, emptyToNone, trimBoth, trimR]
  · by_cases hg0 : g.isEmpty = true
    · simp [canonicalUrlSpec, emptyToNone, hg0, trimBoth, trimR]
    · simp [canonicalUrlSpec, emptyToNone, hg0]
  · by_cases hl0 : l.isEmpty = true
    · simp [canonicalUrlSpec, emptyToNone, hl0, trimBoth, trimR]
    · simp [canonicalUrlSpec, emptyToNone, hl0]
  · by_cases hl0 : l.isEmpty = true
    · by_cases hg0 : g.isEmpty = true
      · simp [canonicalUrlSpec, emptyToNone, hl0, hg0, trimBoth, trimR]
      · simp [canonicalUrlSpec, emptyToNone, hl0, hg0]
    · simp [canonicalUrlSpec, emptyToNone, hl0]

/-- C8 witness: the contract discharged on a concrete guid-only item. -/
theorem c8_canonical_url_witness :
    (normalizeItem (.jobj [("guid", .jstr (strL "id-123"))])).map Article.canonical_url =
      .ok (canonicalUrlSpec none (some (strL "id-123"))) := by
  have h := c8_canonical_url.1 (.jobj [("guid", .jstr (strL "id-123"))])
    (match normalizeItem (.jobj [("guid", .jstr (strL "id-123"))]) with
      | .ok a => a
      | .error _ => ⟨[], none, none, none, none, none, none⟩)
    none (some (strL "id-123")) rfl rfl rfl
  rw [show normalizeItem (.jobj [("guid", .jstr (strL "id-123"))]) =
    .ok (match normalizeItem (.jobj [("guid", .jstr (strL "id-123"))]) with
      | .ok a => a
      | .error _ => ⟨[], none, none, none, none, none, none⟩) from rfl]
  rw [Except.map, h]

/-- C10: when `link` is a non-empty string that trims to empty, the guid
fallback is never consulted: canonical_url and url_hash are both absent
even though `guid` holds a non-empty string. -/
theorem c10_whitespace_link :
    ∀ (item : JVal) (a : Article) (w g : List Char),
      getField item "link" = .jstr w → getField item "guid" = .jstr g →
      w ≠ [] → trimBoth w = [] → normalizeItem item = .ok a →
      a.canonical_url = none ∧ a.url_hash = none := by
  intro item a w g hl hg hw htr h
  obtain ⟨-, ⟨s, hs, hcu⟩, hhash, -⟩ := normalizeItem_ok_fields h
  rw [hl, hg] at hs
  have hwe := isEmpty_false_of_ne hw
  have hseq : w = s := by
    have : jor (jor (JVal.jstr w) (JVal.jstr g)) (JVal.jstr []) = .jstr w := by
      simp [jor, truthy, hwe]
    rw [this] at hs
    exact JVal.jstr.inj hs
  rw [← hseq, htr] at hcu
  simp only [List.isEmpty_nil, if_true] at hcu
  exact ⟨hcu, by rw [hhash, hcu]; rfl⟩

/-- C10 witness: a concrete item with a whitespace-only link and a
perfectly good guid still gets no canonical URL and no hash. -/
theorem c10_whitespace_link_witness :
    (match normalizeItem (.jobj [("link", .jstr (strL " ")),
        ("guid", .jstr (strL "https://example.com/x"))]) with
      | .ok a => a
      | .error _ => ⟨[], none, none, none, none, none, none⟩).canonical_url = none ∧
    (match normalizeItem (.jobj [("link", .jstr (strL " ")),
        ("guid", .jstr (strL "https://example.com/x"))]) with
      | .ok a => a
      | .error _ => ⟨[], none, none, none, none, none, none⟩).url_hash = none :=
  c10_whitespace_link (.jobj [("link", .jstr (strL " ")),
      ("guid", .jstr (strL "https://example.com/x"))]) _
    (strL " ") (strL "https://example.com/x") rfl rfl (by decide) (by decide) rfl

/-- Whether an Except value is a success. -/
def exceptOk {ε α : Type} : Except ε α → Bool
  | .ok _ => true
  | .error _ => false

/-- C7 (amended): the Normalizer is a total pure function on every item
whose title and link/guid chains produce strings (in particular on all
items with absent, null, or string fields plus arbitrary values in every
other field), and a fully sparse or non-object item degrades every field
to absent; but a truthy non-string in title, link, or guid makes the
embedded `.trim()` call raise a TypeError, so the claimed tolerance of
arbitrary unexpected value types does not hold. -/
theorem c7_normalizer_total :
    (∀ item : JVal,
      (∃ s, jor (getField item "title") (.jstr []) = .jstr s) →
      (∃ s, jor (jor (getField item "link") (getField item "guid")) (.jstr []) = .jstr s) →
      ∃ a, normalizeItem item = .ok a) ∧
    normalizeItem (.jobj []) = .ok ⟨[], none, none, none, none, none, none⟩ ∧
    normalizeItem .jnull = .ok ⟨[], none, none, none, none, none, none⟩ := by
  refine ⟨?_, rfl, rfl⟩
  intro item ⟨s1, hs1⟩ ⟨s2, hs2⟩
  unfold normalizeItem
  rw [hs1, hs2]
  exact ⟨_, rfl⟩

/-- C7 counterexample: an item whose `title` holds a number (a truthy
non-string) makes normalization throw a TypeError instead of returning
an Article. -/
theorem c7_typeerror_cex :
    normalizeItem (.jobj [("title", .jnum 42)]) = .error .typeError ∧
    normalizeItem (.jobj [("link", .jnum 7)]) = .error .typeError :=
  ⟨rfl, rfl⟩

/-- C7 witness: a malformed item with junk in non-URL fields still
normalizes successfully. -/
theorem c7_normalizer_total_witness :
    exceptOk (normalizeItem (.jobj [("description", .jnum 7),
      ("enclosure", .jbool true)])) = true := by
  obtain ⟨a, ha⟩ := c7_normalizer_total.1
    (.jobj [("description", .jnum 7), ("enclosure", .jbool true)])
    ⟨[], rfl⟩ ⟨[], rfl⟩
  rw [ha]
  rfl

theorem jorChainNull (oiso opub : Option (List Char)) :
    jor (jor (optStr oiso) (optStr opub)) .jnull =
      (if !(oiso.getD []).isEmpty then .jstr (oiso.getD [])
        else if !(opub.getD []).isEmpty then .jstr (opub.getD []) else .jnull) := by
  rcases oiso with _ | l <;> rcases opub with _ | g
  · simp [optStr, jor, truthy]
  · by_cases hg0 : g.isEmpty = true
    · simp [optStr, jor, truthy, hg0]
    · simp [optStr, jor, truthy, hg0]
  · by_cases hl0 : l.isEmpty = true
    · simp [optStr, jor, truthy, hl0]
    · simp [optStr, jor, truthy, hl0]
  · by_cases hl0 : l.isEmpty = true
    · by_cases hg0 : g.isEmpty = true
      · simp [optStr, jor, truthy, hl0, hg0]
      · simp [optStr, jor, truthy, hl0, hg0]
    · simp [optStr, jor, truthy, hl0]

/-- The published_at contract as amended: the JavaScript Date of the
normalized-date field when that is a non-empty string, else of the
raw-format date field when non-empty, else absent.  The Date value may
be the Invalid Date marker when the chosen string does not parse. -/
def publishedAtSpec (iso pub : Option (List Char)) : Option JSDate :=
  if !(iso.getD []).isEmpty then some (jsNewDate (.jstr (iso.getD [])))
  else if !(pub.getD []).isEmpty then some (jsNewDate (.jstr (pub.getD [])))
  else none

/-- C2 (amended): published_at is the JS Date of isoDate when truthy, else
of pubDate when truthy, and absent when both are missing or empty; the
computation never raises, but an unparsable chosen value is stored as a
present Invalid Date, not as absent. -/
theorem c2_published_at :
    (∀ (item : JVal) (a : Article) (oiso opub : Option (List Char)),
      getField item "isoDate" = optStr oiso → getField item "pubDate" = optStr opub →
      normalizeItem item = .ok a → a.published_at = publishedAtSpec oiso opub) ∧
    jsNewDate (.jstr (strL "not-a-date")) = .invalid ∧
    ((normalizeItem (.jobj [("pubDate", .jstr (strL "not-a-date"))])).map
      Article.published_at = .ok (some .invalid)) := by
  refine ⟨?_, rfl, rfl⟩
  intro item a oiso opub hiso hpub h
  have hpa := (normalizeItem_ok_fields h).2.2.2
  rw [hiso, hpub, jorChainNull] at hpa
  rw [hpa]
  rcases oiso with _ | l <;> rcases opub with _ | g
  · simp [publishedAtSpec, truthy]
  · by_cases hg0 : g.isEmpty = true
    · simp [publishedAtSpec, truthy, hg0]
    · simp [publishedAtSpec, truthy, hg0]
  · by_cases hl0 : l.isEmpty = true
    · simp [publishedAtSpec, truthy, hl0]
    · simp [publishedAtSpec, truthy, hl0]
  · by_cases hl0 : l.isEmpty = true
    · by_cases hg0 : g.isEmpty = true
      · simp [publishedAtSpec, truthy, hl0, hg0]
      · simp [publishedAtSpec, truthy, hl0, hg0]
    · simp [publishedAtSpec, truthy, hl0]

/-- C2 counterexample: an item whose only date field holds the string
"not-a-date" gets a present Invalid-Date published_at, not the absent
value the claim requires for a parse failure. -/
theorem c2_published_at_cex :
    ((normalizeItem (.jobj [("pubDate", .jstr (strL "not-a-date"))])).map
      Article.published_at = .ok (some .invalid)) ∧
    (some JSDate.invalid ≠ (none : Option JSDate)) :=
  ⟨rfl, by decide⟩

/-- C2 witness: the amended contract discharged on items carrying a
parsable ISO date and an unparsable date. -/
theorem c2_published_at_witness :
    (match normalizeItem (.jobj [("isoDate", .jstr (strL "2024-01-02"))]) with
      | .ok a => a
      | .error _ => ⟨[], none, none, none, none, none, none⟩).published_at =
      publishedAtSpec (some (strL "2024-01-02")) none ∧
    (match normalizeItem (.jobj [("pubDate", .jstr (strL "not-a-date"))]) with
      | .ok a => a
      | .error _ => ⟨[], none, none, none, none, none, none⟩).published_at =
      publishedAtSpec none (some (strL "not-a-date")) :=
  ⟨c2_published_at.1 (.jobj [("isoDate", .jstr (strL "2024-01-02"))]) _
      (some (strL "2024-01-02")) none rfl rfl rfl,
    c2_published_at.1 (.jobj [("pubDate", .jstr (strL "not-a-date"))]) _
      none (some (strL "not-a-date")) rfl rfl rfl⟩

/-!  C9: the image priority chain, stated against a declarative candidate
list evaluated first-success-wins. -/

/-- One image-source reference, from the spec: a raw string, or an object
with a truthy `url` member, else nothing. -/
def refCand (v : JVal) : Option JVal :=
  if isStrB v then some (.jstr (strVal v))
  else if truthy (getField v "url") then some (getField v "url")
  else none

/-- The HTML fallback, from the spec: scan the rich-text or plain body for
the first `<img src="...">` occurrence. -/
def htmlCand (item : JVal) : Option JVal :=
  let html := jor (getField item "content:encoded") (getField item "content")
  if truthy html then
    match imgScan (jsToString html) with
    | some u => if u.isEmpty then none else some (.jstr u)
    | none => none
  else none

/-- The spec's fixed priority list of image sources for an item. -/
def imageCandidates (item : JVal) : List (Option JVal) :=
  [refCand (getField item "enclosure"), refCand (getField item "mediaContent"),
    refCand (getField item "mediaThumbnail"), htmlCand item]

theorem findSome_id_cons (o : Option JVal) (l : List (Option JVal)) :
    (o :: l).findSome? id = (match o with | some x => some x | none => l.findSome? id) := by
  cases o <;> simp [List.findSome?_cons]

/-- C9: pickImage is exactly the first success of the declarative priority
list (so a later source is never consulted once an earlier one yields),
an enclosure wins over a media thumbnail present on the same item, and
the HTML fallback is a single case-insensitive pattern match. -/
theorem refCand_stage (v : JVal) {rest rest2 : Option JVal} (hrest : rest = rest2) :
    (if isStrB v then some (.jstr (strVal v))
      else if truthy (getField v "url") then some (getField v "url") else rest) =
    (match refCand v with | some x => some x | none => rest2) := by
  unfold refCand
  by_cases h1 : isStrB v = true
  · simp [h1]
  · by_cases h2 : truthy (getField v "url") = true
    · simp [h1, h2]
    · simp [h1, h2, hrest]

/-- C9: pickImage is exactly the first success of the declarative priority
list (so a later source is never consulted once an earlier one yields),
an enclosure wins over a media thumbnail present on the same item, and
the HTML fallback is a single case-insensitive pattern match. -/
theorem c9_image_priority :
    (∀ item : JVal, pickImage item = (imageCandidates item).findSome? id) ∧
    pickImage (.jobj [("enclosure", .jstr (strL "E")),
      ("mediaThumbnail", .jobj [("url", .jstr (strL "T"))])]) = some (.jstr (strL "E")) ∧
    pickImage (.jobj [("content", .jstr (strL "<IMG SRC=\"u\">"))]) =
      some (.jstr (strL "u")) := by
  refine ⟨?_, rfl, rfl⟩
  intro item
  have hhtml : (match htmlCand item with
      | some x => some x
      | none => (none : Option JVal)) = htmlCand item := by
    cases htmlCand item <;> rfl
  show _ = (imageCandidates item).findSome? id
  unfold imageCandidates
  rw [findSome_id_cons, findSome_id_cons, findSome_id_cons, findSome_id_cons,
    List.findSome?_nil, hhtml]
  exact refCand_stage _ (refCand_stage _ (refCand_stage _ rfl))

/-- Number of fetch attempts recorded in a retry trace. -/
def countAttempts (evs : List Ev) : Nat :=
  (evs.filter (fun e => match e with | .attemptEv _ => true | _ => false)).length

/-- C3 (amended): at most three strictly sequential attempts; every
failure, of any kind, triggers a retry until the cap; the delay before
attempt n (n > 1) is n time units, i.e. 2 then 3 units before attempts 2
and 3 (the source's `backoff = 1000 * i`); and when all three attempts
fail the fetcher fails with the last underlying error. -/
theorem c3_retry_policy (α : Type) (oracle : Nat → Except (List Char) α) :
    (∀ f, oracle 1 = .ok f →
      parseWithRetry oracle 3 = (.ok f, [.attemptEv 1])) ∧
    (∀ e1 f, oracle 1 = .error e1 → oracle 2 = .ok f →
      parseWithRetry oracle 3 = (.ok f, [.attemptEv 1, .delayEv 2, .attemptEv 2])) ∧
    (∀ e1 e2 f, oracle 1 = .error e1 → oracle 2 = .error e2 → oracle 3 = .ok f →
      parseWithRetry oracle 3 =
        (.ok f, [.attemptEv 1, .delayEv 2, .attemptEv 2, .delayEv 3, .attemptEv 3])) ∧
    (∀ e1 e2 e3, oracle 1 = .error e1 → oracle 2 = .error e2 → oracle 3 = .error e3 →
      parseWithRetry oracle 3 =
        (.error e3, [.attemptEv 1, .delayEv 2, .attemptEv 2, .delayEv 3, .attemptEv 3])) ∧
    countAttempts (parseWithRetry oracle 3).2 ≤ 3 := by
  refine ⟨?_, ?_, ?_, ?_, ?_⟩
  · intro f h1
    simp [parseWithRetry, pwrGo, h1]
  · intro e1 f h1 h2
    simp [parseWithRetry, pwrGo, h1, h2]
  · intro e1 e2 f h1 h2 h3
    simp [parseWithRetry, pwrGo, h1, h2, h3]
  · intro e1 e2 e3 h1 h2 h3
    simp [parseWithRetry, pwrGo, h1, h2, h3]
  · cases h1 : oracle 1 with
    | ok f => simp [parseWithRetry, pwrGo, h1, countAttempts]
    | error e1 =>
      cases h2 : oracle 2 with
      | ok f => simp [parseWithRetry, pwrGo, h1, h2, countAttempts]
      | error e2 =>
        cases h3 : oracle 3 with
        | ok f => simp [parseWithRetry, pwrGo, h1, h2, h3, countAttempts]
        | error e3 => simp [parseWithRetry, pwrGo, h1, h2, h3, countAttempts]

/-- C3 counterexample: with an always-failing oracle the recorded delays
are 2 and 3 time units, and no delay of 1 unit ever occurs, refuting the
claimed 1-unit wait before attempt 2. -/
theorem c3_backoff_cex :
    (parseWithRetry (fun _ => (.error (strL "e") : Except (List Char) Nat)) 3).2 =
      [.attemptEv 1, .delayEv 2, .attemptEv 2, .delayEv 3, .attemptEv 3] ∧
    Ev.delayEv 1 ∉
      (parseWithRetry (fun _ => (.error (strL "e") : Except (List Char) Nat)) 3).2 :=
  ⟨rfl, by decide⟩

/-- C3 witness: the amended retry policy discharged on an oracle that
fails twice and succeeds on the third attempt, and on one that always
fails. -/
theorem c3_retry_policy_witness :
    parseWithRetry (fun i => if i < 3 then (.error (strL "x") : Except (List Char) Nat)
        else .ok 7) 3 =
      (.ok 7, [.attemptEv 1, .delayEv 2, .attemptEv 2, .delayEv 3, .attemptEv 3]) ∧
    parseWithRetry (fun _ => (.error (strL "e") : Except (List Char) Nat)) 3 =
      (.error (strL "e"),
        [.attemptEv 1, .delayEv 2, .attemptEv 2, .delayEv 3, .attemptEv 3]) :=
  ⟨(c3_retry_policy Nat _).2.2.1 (strL "x") (strL "x") 7 rfl rfl rfl,
    (c3_retry_policy Nat _).2.2.2.1 (strL "e") (strL "e") (strL "e") rfl rfl rfl⟩

/-- C5: an item missing canonical_url, url_hash, or title is counted as
skipped with no store call; a submitted item's store response is
classified inserted exactly on affectedRows 1, duplicated exactly on
affectedRows 2, and skipped otherwise; and over a whole feed each
successfully normalized item increments exactly one of the three
counters. -/
theorem c5_item_classification :
    (∀ (query : Article → Except (List Char) Nat) (raw : JVal) (n : Article)
      (rest : List JVal) (t : Tally) (calls : List Article),
      normalizeItem raw = .ok n →
      (jsFalsyStr n.canonical_url || jsFalsyStr n.url_hash || n.title.isEmpty) = true →
      saveGo query (raw :: rest) t calls =
        saveGo query rest ⟨t.inserted, t.duplicated, t.skipped + 1, t.error⟩ calls) ∧
    (∀ (query : Article → Except (List Char) Nat) (n : Article),
      (jsFalsyStr n.canonical_url || jsFalsyStr n.url_hash || n.title.isEmpty) = false →
      (itemStep query n).2 = [n] ∧
      ((itemStep query n).1 = .insertedR ↔ query n = .ok 1) ∧
      ((itemStep query n).1 = .duplicatedR ↔ query n = .ok 2)) ∧
    (∀ (query : Article → Except (List Char) Nat) (items : List JVal),
      ∀ (t : Tally) (calls : List Article),
      (∀ raw ∈ items, ∃ a, normalizeItem raw = .ok a) →
      (saveGo query items t calls).1.inserted + (saveGo query items t calls).1.duplicated +
        (saveGo query items t calls).1.skipped =
        t.inserted + t.duplicated + t.skipped + items.length) := by
  refine ⟨?_, ?_, ?_⟩
  · intro query raw n rest t calls hn hc
    simp [saveGo, hn, hc]
  · intro query n hc
    have hc2 : (n.title.isEmpty || jsFalsyStr n.canonical_url || jsFalsyStr n.url_hash)
        = false := by
      simp only [Bool.or_eq_false_iff] at hc ⊢
      tauto
    unfold itemStep insertArticle
    rw [hc2]
    simp only [Bool.false_eq_true, if_false]
    cases hq : query n with
    | error e => simp
    | ok rows =>
      by_cases h1 : rows = 1
      · subst h1
        simp
      · by_cases h2 : rows = 2
        · subst h2
          simp
        · simp [h1, h2]
  · intro query items
    induction items with
    | nil =>
      intro t calls hall
      simp [saveGo]
    | cons raw rest ih =>
      intro t calls hall
      obtain ⟨a, ha⟩ := hall raw (List.mem_cons_self _ _)
      have hrest : ∀ r ∈ rest, ∃ b, normalizeItem r = .ok b :=
        fun r hr => hall r (List.mem_cons_of_mem _ hr)
      by_cases hc : (jsFalsyStr a.canonical_url || jsFalsyStr a.url_hash ||
          a.title.isEmpty) = true
      · rw [show saveGo query (raw :: rest) t calls =
            saveGo query rest ⟨t.inserted, t.duplicated, t.skipped + 1, t.error⟩ calls from
          by simp [saveGo, ha, hc]]
        rw [ih _ _ hrest]
        simp only [List.length_cons]
        omega
      · have hcf : (jsFalsyStr a.canonical_url || jsFalsyStr a.url_hash ||
            a.title.isEmpty) = false := by
          cases hcc : (jsFalsyStr a.canonical_url || jsFalsyStr a.url_hash ||
              a.title.isEmpty)
          · rfl
          · exact absurd hcc hc
        rcases hstep : itemStep query a with ⟨res, cs⟩
        cases res with
        | insertedR =>
          rw [show saveGo query (raw :: rest) t calls = saveGo query rest
              ⟨t.inserted + 1, t.duplicated, t.skipped, t.error⟩ (calls ++ cs) from
            by simp [saveGo, ha, hcf, hstep]]
          rw [ih _ _ hrest]
          simp only [List.length_cons]
          omega
        | duplicatedR =>
          rw [show saveGo query (raw :: rest) t calls = saveGo query rest
              ⟨t.inserted, t.duplicated + 1, t.skipped, t.error⟩ (calls ++ cs) from
            by simp [saveGo, ha, hcf, hstep]]
          rw [ih _ _ hrest]
          simp only [List.length_cons]
          omega
        | skippedR =>
          rw [show saveGo query (raw :: rest) t calls = saveGo query rest
              ⟨t.inserted, t.duplicated, t.skipped + 1, t.error⟩ (calls ++ cs) from
            by simp [saveGo, ha, hcf, hstep]]
          rw [ih _ _ hrest]
          simp only [List.length_cons]
          omega

/-- C5 witness: the classification discharged on a keyless item (skipped,
no store call), a fully keyed article (inserted on affectedRows 1), and a
one-item feed whose counters sum to the item count. -/
theorem c5_item_classification_witness :
    saveGo (fun _ => .ok 1) [JVal.jobj []] ⟨0, 0, 0, none⟩ [] =
      saveGo (fun _ => .ok 1) [] ⟨0, 0, 1, none⟩ [] ∧
    (itemStep (fun _ => .ok 1) c1artA).2 = [c1artA] ∧
    (itemStep (fun _ => .ok 1) c1artA).1 = .insertedR ∧
    (saveGo (fun _ => .ok 1) [c1itemA] ⟨0, 0, 0, none⟩ []).1.inserted +
      (saveGo (fun _ => .ok 1) [c1itemA] ⟨0, 0, 0, none⟩ []).1.duplicated +
      (saveGo (fun _ => .ok 1) [c1itemA] ⟨0, 0, 0, none⟩ []).1.skipped = 1 := by
  refine ⟨?_, ?_, ?_, ?_⟩
  · exact c5_item_classification.1 (fun _ => .ok 1) (.jobj [])
      ⟨[], none, none, none, none, none, none⟩ [] ⟨0, 0, 0, none⟩ [] rfl rfl
  · exact (c5_item_classification.2.1 (fun _ => .ok 1) c1artA (by decide)).1
  · exact ((c5_item_classification.2.1 (fun _ => .ok 1) c1artA (by decide)).2.1).mpr rfl
  · have h := c5_item_classification.2.2 (fun _ => .ok 1) [c1itemA] ⟨0, 0, 0, none⟩ []
      (fun raw hr => ⟨c1artA, by rw [List.mem_singleton.mp hr]; rfl⟩)
    simpa using h

theorem mainTotals_go (query : Article → Except (List Char) Nat)
    (feeds : List (Nat → Except (List Char) (List JVal))) :
    ∀ a b c, feeds.foldl (fun acc o =>
        let t := saveFeed o query
        (acc.1 + t.inserted, acc.2.1 + t.duplicated, acc.2.2 + t.skipped)) (a, b, c) =
      (a + (feeds.map fun o => (saveFeed o query).inserted).sum,
        b + (feeds.map fun o => (saveFeed o query).duplicated).sum,
        c + (feeds.map fun o => (saveFeed o query).skipped).sum) := by
  induction feeds with
  | nil => intro a b c; simp
  | cons o rest ih =>
    intro a b c
    simp only [List.foldl_cons, List.map_cons, List.sum_cons]
    rw [ih]
    refine congrArg₂ _ (by omega) (congrArg₂ _ (by omega) (by omega))

theorem saveGo_error_const (query : Article → Except (List Char) Nat)
    (items : List JVal) : ∀ (t : Tally) (calls : List Article),
    (∀ raw ∈ items, ∃ a, normalizeItem raw = .ok a) →
    (saveGo query items t calls).1.error = t.error := by
  induction items with
  | nil => intro t calls hall; simp [saveGo]
  | cons raw rest ih =>
    intro t calls hall
    obtain ⟨a, ha⟩ := hall raw (List.mem_cons_self _ _)
    have hrest : ∀ r ∈ rest, ∃ b, normalizeItem r = .ok b :=
      fun r hr => hall r (List.mem_cons_of_mem _ hr)
    by_cases hc : (jsFalsyStr a.canonical_url || jsFalsyStr a.url_hash ||
        a.title.isEmpty) = true
    · rw [show saveGo query (raw :: rest) t calls =
          saveGo query rest ⟨t.inserted, t.duplicated, t.skipped + 1, t.error⟩ calls from
        by simp [saveGo, ha, hc]]
      exact ih _ _ hrest
    · have hcf : (jsFalsyStr a.canonical_url || jsFalsyStr a.url_hash ||
          a.title.isEmpty) = false := by
        cases hcc : (jsFalsyStr a.canonical_url || jsFalsyStr a.url_hash ||
            a.title.isEmpty)
        · rfl
        · exact absurd hcc hc
      rcases hstep : itemStep query a with ⟨res, cs⟩
      cases res with
      | insertedR =>
        rw [show saveGo query (raw :: rest) t calls = saveGo query rest
            ⟨t.inserted + 1, t.duplicated, t.skipped, t.error⟩ (calls ++ cs) from
          by simp [saveGo, ha, hcf, hstep]]
        exact ih _ _ hrest
      | duplicatedR =>
        rw [show saveGo query (raw :: rest) t calls = saveGo query rest
            ⟨t.inserted, t.duplicated + 1, t.skipped, t.error⟩ (calls ++ cs) from
          by simp [saveGo, ha, hcf, hstep]]
        exact ih _ _ hrest
      | skippedR =>
        rw [show saveGo query (raw :: rest) t calls = saveGo query rest
            ⟨t.inserted, t.duplicated, t.skipped + 1, t.error⟩ (calls ++ cs) from
          by simp [saveGo, ha, hcf, hstep]]
        exact ih _ _ hrest

/-- C6: failures never escalate across granularity levels.  A store error
on one item is caught, counted as skipped, and the rest of the feed keeps
processing; exhausting all fetch retries yields a zero tally carrying the
error for that source only; the run totals are precisely the sums of
every configured source's own tally, so one source's failure never stops
another from being processed; and a feed that succeeds on its last
attempt records no feed-level failure. -/
theorem c6_failure_isolation :
    (∀ (oracle : Nat → Except (List Char) (List JVal))
      (query : Article → Except (List Char) Nat) (e : List Char),
      (parseWithRetry oracle 3).1 = .error e →
      saveFeed oracle query = ⟨0, 0, 0, some e⟩) ∧
    (∀ (query : Article → Except (List Char) Nat) (raw : JVal) (n : Article)
      (rest : List JVal) (t : Tally) (calls : List Article) (e : List Char),
      normalizeItem raw = .ok n →
      (jsFalsyStr n.canonical_url || jsFalsyStr n.url_hash || n.title.isEmpty) = false →
      query n = .error e →
      saveGo query (raw :: rest) t calls =
        saveGo query rest ⟨t.inserted, t.duplicated, t.skipped + 1, t.error⟩ (calls ++ [n])) ∧
    (∀ (feeds : List (Nat → Except (List Char) (List JVal)))
      (query : Article → Except (List Char) Nat),
      mainTotals feeds query =
        ((feeds.map fun o => (saveFeed o query).inserted).sum,
          (feeds.map fun o => (saveFeed o query).duplicated).sum,
          (feeds.map fun o => (saveFeed o query).skipped).sum)) ∧
    (∀ (oracle : Nat → Except (List Char) (List JVal))
      (query : Article → Except (List Char) Nat) (items : List JVal) (e1 e2 : List Char),
      oracle 1 = .error e1 → oracle 2 = .error e2 → oracle 3 = .ok items →
      (∀ raw ∈ items, ∃ a, normalizeItem raw = .ok a) →
      (saveFeed oracle query).error = none) := by
  refine ⟨?_, ?_, ?_, ?_⟩
  · intro oracle query e h
    simp [saveFeed, h]
  · intro query raw n rest t calls e hn hcf hq
    have hc2 : (n.title.isEmpty || jsFalsyStr n.canonical_url || jsFalsyStr n.url_hash)
        = false := by
      simp only [Bool.or_eq_false_iff] at hcf ⊢
      tauto
    have hstep : itemStep query n = (.skippedR, [n]) := by
      unfold itemStep insertArticle
      rw [hc2]
      simp [hq]
    simp [saveGo, hn, hcf, hstep]
  · intro feeds query
    unfold mainTotals
    rw [mainTotals_go]
    simp
  · intro oracle query items e1 e2 h1 h2 h3 hall
    have hfetch : (parseWithRetry oracle 3).1 = .ok items := by
      simp [parseWithRetry, pwrGo, h1, h2, h3]
    unfold saveFeed
    rw [hfetch]
    exact saveGo_error_const query items ⟨0, 0, 0, none⟩ [] hall

/-- C6 witness: a store that always throws still lets the feed loop
continue; a source whose fetch always fails reports a zeroed tally with
its error; and a two-source run sums both tallies. -/
theorem c6_failure_isolation_witness :
    saveFeed (fun _ => .error (strL "net down")) (fun _ => .ok 1) =
      ⟨0, 0, 0, some (strL "net down")⟩ ∧
    saveGo (fun _ => .error (strL "db down")) [c1itemA] ⟨0, 0, 0, none⟩ [] =
      saveGo (fun _ => .error (strL "db down")) [] ⟨0, 0, 1, none⟩ [c1artA] ∧
    (saveFeed (fun i => if i < 3 then .error (strL "x") else .ok [c1itemA])
      (fun _ => .ok 1)).error = none := by
  refine ⟨?_, ?_, ?_⟩
  · exact c6_failure_isolation.1 (fun _ => .error (strL "net down")) (fun _ => .ok 1)
      (strL "net down") rfl
  · exact c6_failure_isolation.2.1 (fun _ => .error (strL "db down")) c1itemA c1artA []
      ⟨0, 0, 0, none⟩ [] (strL "db down") rfl (by decide) rfl
  · exact c6_failure_isolation.2.2.2
      (fun i => if i < 3 then .error (strL "x") else .ok [c1itemA]) (fun _ => .ok 1)
      [c1itemA] (strL "x") (strL "x") rfl rfl rfl
      (fun raw hr => ⟨c1artA, by rw [List.mem_singleton.mp hr]; rfl⟩)
